import Mathlib

/-!
Verification of the P2P Kademlia file-sharing node.

Shallow embedding of the repository's core components:
* `src/src/dht/utils.py` — identifier algebra (xor distance, bucket index),
* `src/backend/src/dht/routing.py` — `NodeInfo`, `KBucket`, `RoutingTable`,
* `src/src/dht/kademlia.py` — `_iterative_lookup` and `store`,
* `src/src/file/manifest.py` — `create_manifest`,
* `src/src/file/storage.py` — `ChunkStorage.get_chunk` / `reassemble_file`,
* `src/backend/src/transfer/protocol.py` — `TransferMessage.from_reader`.

Byte strings are embedded as `List Nat` (each element is one byte).
SHA-256 / hashlib digests are embedded as an explicit hash-function
parameter `hash : List Nat → String` (the code only ever compares digest
strings for equality, so every theorem is stated for the relevant class of
hash functions).  Async/await structure is sequentialised; network I/O is
an explicit oracle argument.
-/

namespace P2P

/-- A byte string (Python `bytes`): a list of byte values. -/
abbrev Bytes := List Nat

/-- `int.from_bytes(b, byteorder='big')` from `src/src/dht/utils.py`. -/
def bytes_to_int (b : Bytes) : Nat :=
  b.foldl (fun acc x => acc * 256 + x) 0

/-- Number of bits in a node ID (`ID_BITS` in `src/src/dht/utils.py`). -/
def ID_BITS : Nat := 160

/-- Number of bytes in a node ID (`ID_BYTES`). -/
def ID_BYTES : Nat := 20

/-- Halving loop computing the number of binary digits; the first argument
is fuel (structural recursion), sufficient whenever `fuel ≥ n`. -/
def bitLenFuel : Nat → Nat → Nat
  | 0, _ => 0
  | fuel + 1, n => if n = 0 then 0 else bitLenFuel fuel (n / 2) + 1

/-- Python `int.bit_length()`: the number of binary digits of `n`
(`0` for `0`). -/
def bitLength (n : Nat) : Nat := bitLenFuel n n

/-- Byte-wise xor of two byte strings, truncated to the shorter one
(Python `bytes(a ^ b for a, b in zip(id1, id2))`). -/
def xorBytes (id1 id2 : Bytes) : Bytes :=
  (id1.zip id2).map fun p => Nat.xor p.1 p.2

/-- `xor_distance` from `src/src/dht/utils.py`: byte-wise xor converted to a
big-endian integer. -/
def xor_distance (id1 id2 : Bytes) : Nat :=
  bytes_to_int (xorBytes id1 id2)

/-- `get_bucket_index` from `src/src/dht/utils.py`: `-1` when the IDs are
identical, otherwise `ID_BITS - distance.bit_length()`. -/
def get_bucket_index (node_id other_id : Bytes) : Int :=
  let distance := xor_distance node_id other_id
  if distance = 0 then -1
  else (ID_BITS : Int) - (bitLength distance : Int)

/-- Kademlia bucket size `K` from `src/backend/src/dht/routing.py`. -/
def K : Nat := 20

/-- Lookup parallelism `ALPHA` from `src/backend/src/dht/routing.py`. -/
def ALPHA : Nat := 3

/-- `NodeInfo` dataclass from `src/backend/src/dht/routing.py`. -/
structure NodeInfo where
  node_id : Bytes
  ip : String
  port : Nat
  last_seen : Nat := 0
  failed_requests : Nat := 0
  deriving Repr, DecidableEq

/-- `update_last_seen`: set `last_seen` to the current time and reset the
failure counter. -/
def NodeInfo.update_last_seen (now : Nat) (n : NodeInfo) : NodeInfo :=
  { n with last_seen := now, failed_requests := 0 }

/-- A k-bucket (`KBucket` in `src/backend/src/dht/routing.py`).  The two
`OrderedDict`s are embedded as lists in insertion order (oldest first);
keys are the `node_id` fields and are kept distinct by the operations. -/
structure KBucket where
  k : Nat := K
  nodes : List NodeInfo := []
  replacement_cache : List NodeInfo := []
  deriving Repr, DecidableEq

/-- `node_id in ordered-dict` test: membership by key. -/
def keyMem (id : Bytes) (l : List NodeInfo) : Bool :=
  l.any fun n => n.node_id = id

/-- `OrderedDict.move_to_end`: move the entry with the given key to the
newest position (value unchanged). -/
def moveToEnd (id : Bytes) (l : List NodeInfo) : List NodeInfo :=
  (l.filter fun n => n.node_id ≠ id) ++ l.filter fun n => n.node_id = id

/-- `OrderedDict[key] = value` on an ordered dict: replace in place when the
key exists, otherwise append at the newest position. -/
def dictInsert (v : NodeInfo) (l : List NodeInfo) : List NodeInfo :=
  if keyMem v.node_id l then l.map (fun n => if n.node_id = v.node_id then v else n)
  else l ++ [v]

/-- `while len(cache) > k: cache.popitem(last=False)`: drop oldest entries
until at most `k` remain. -/
def trimFront (k : Nat) : List NodeInfo → List NodeInfo
  | [] => []
  | x :: t => if (x :: t).length > k then trimFront k t else x :: t

/-- In-place update of the stored entry (`self._nodes[id].update_last_seen()`):
the ordered dict keeps the stored object, only its timestamp fields change. -/
def touchEntry (id : Bytes) (now : Nat) (l : List NodeInfo) : List NodeInfo :=
  l.map fun n => if n.node_id = id then n.update_last_seen now else n

/-- `KBucket.add_node` from `src/backend/src/dht/routing.py`:
* existing node: move to newest position and refresh its timestamp;
* bucket not full: append;
* bucket full: put the newcomer in the replacement cache (FIFO-bounded at
  `k`) and return the oldest bucket entry for liveness verification. -/
def KBucket.add_node (now : Nat) (node : NodeInfo) (b : KBucket) :
    Option NodeInfo × KBucket :=
  if keyMem node.node_id b.nodes then
    (none, { b with nodes := moveToEnd node.node_id (touchEntry node.node_id now b.nodes) })
  else if b.nodes.length < b.k then
    (none, { b with nodes := b.nodes ++ [node] })
  else
    let cache := trimFront b.k (dictInsert node b.replacement_cache)
    (b.nodes.head?, { b with replacement_cache := cache })

/-- `KBucket.remove_node`: delete the entry; when the replacement cache is
non-empty promote its oldest entry into the bucket. -/
def KBucket.remove_node (id : Bytes) (b : KBucket) : Bool × KBucket :=
  if keyMem id b.nodes then
    let nodes := b.nodes.filter fun n => n.node_id ≠ id
    match b.replacement_cache with
    | [] => (true, { b with nodes := nodes })
    | r :: rest => (true, { b with nodes := nodes ++ [r], replacement_cache := rest })
  else (false, b)

/-- `KBucket.mark_node_seen`: refresh the timestamp and move to the newest
position when present. -/
def KBucket.mark_node_seen (now : Nat) (id : Bytes) (b : KBucket) : KBucket :=
  if keyMem id b.nodes then
    { b with nodes := moveToEnd id (touchEntry id now b.nodes) }
  else b

/-- `KBucket.get_node`: lookup by ID. -/
def KBucket.get_node (id : Bytes) (b : KBucket) : Option NodeInfo :=
  b.nodes.find? fun n => n.node_id = id

/-- `RoutingTable` from `src/backend/src/dht/routing.py`: 160 k-buckets. -/
structure RoutingTable where
  node_id : Bytes
  k : Nat := K
  buckets : List KBucket
  deriving Repr, DecidableEq

/-- `RoutingTable.__init__`: fresh table with `ID_BITS` empty buckets. -/
def RoutingTable.init (node_id : Bytes) (k : Nat := K) : RoutingTable :=
  { node_id := node_id, k := k, buckets := List.replicate ID_BITS { k := k } }

/-- `RoutingTable._get_bucket_for_node`: bucket index for an ID, `none` when
the ID equals our own (`get_bucket_index` returned `-1`). -/
def RoutingTable.bucketIndexFor (t : RoutingTable) (other_id : Bytes) : Option Nat :=
  let index := get_bucket_index t.node_id other_id
  if index < 0 then none else some index.toNat

/-- Apply `f` to the bucket the ID belongs to; identity (with a default
answer) when `_get_bucket_for_node` returned `None`.  For 20-byte IDs the
index is always in range; an out-of-range index would raise in Python and
is embedded as the no-bucket case. -/
def RoutingTable.withBucket (t : RoutingTable) (other_id : Bytes) (default : α)
    (f : KBucket → α × KBucket) : α × RoutingTable :=
  match t.bucketIndexFor other_id with
  | none => (default, t)
  | some i =>
    match t.buckets[i]? with
    | none => (default, t)
    | some b =>
      let (a, b2) := f b
      (a, { t with buckets := t.buckets.set i b2 })

/-- `RoutingTable.add_node`: refuse our own ID, otherwise delegate to the
bucket chosen by `get_bucket_index`. -/
def RoutingTable.add_node (now : Nat) (node : NodeInfo) (t : RoutingTable) :
    Option NodeInfo × RoutingTable :=
  if node.node_id = t.node_id then (none, t)
  else t.withBucket node.node_id none (fun b => b.add_node now node)

/-- `RoutingTable.remove_node`. -/
def RoutingTable.remove_node (id : Bytes) (t : RoutingTable) : Bool × RoutingTable :=
  t.withBucket id false (fun b => b.remove_node id)

/-- `RoutingTable.mark_node_seen`. -/
def RoutingTable.mark_node_seen (now : Nat) (id : Bytes) (t : RoutingTable) : RoutingTable :=
  (t.withBucket id () (fun b => ((), b.mark_node_seen now id))).2

/-- `RoutingTable.get_node`. -/
def RoutingTable.get_node (id : Bytes) (t : RoutingTable) : Option NodeInfo :=
  match t.bucketIndexFor id with
  | none => none
  | some i =>
    match t.buckets[i]? with
    | none => none
    | some b => b.get_node id

/-- `RoutingTable.find_closest_nodes`: all bucket contents sorted by xor
distance to the target, truncated to `count`.  Python `list.sort` is a
stable sort; `List.insertionSort` with a `≤` comparator is one too. -/
def RoutingTable.find_closest_nodes (t : RoutingTable) (target_id : Bytes)
    (count : Nat := K) : List NodeInfo :=
  let all_nodes := t.buckets.flatMap fun b => b.nodes
  (all_nodes.insertionSort fun a b =>
    xor_distance target_id a.node_id ≤ xor_distance target_id b.node_id).take count

/-- `RoutingTable.get_refresh_targets`: one target per empty bucket.
`rand i` stands for the `os.urandom(ID_BYTES)` output drawn while visiting
bucket `i`; the code xors it with our own ID and emits the result. -/
def RoutingTable.get_refresh_targets (t : RoutingTable) (rand : Nat → Bytes) :
    List Bytes :=
  (List.range t.buckets.length).filterMap fun i =>
    match t.buckets[i]? with
    | some b => if b.nodes.length = 0 then some (xorBytes t.node_id (rand i)) else none
    | none => none

/-! ## Iterative lookup (`KademliaNode._iterative_lookup`, `src/src/dht/kademlia.py`)

The network is an oracle `net : Bytes → ReqOutcome` giving, per queried
contact (keyed by its node ID), the outcome of `_send_find_node` /
`_send_find_value` for this lookup:
* `exc` — the task raised, so `asyncio.gather(..., return_exceptions=True)`
  deliverd an exception object;
* `noResp` — `protocol.send_request` returned `None` (timeout) or the
  response had the wrong type, so the helper returned `None`;
* `resp r` — a well-typed response with payload `r`; the helper called
  `routing_table.mark_node_seen` before returning the payload.
-/

/-- Payload of a `FIND_NODE_RESPONSE` / `FIND_VALUE_RESPONSE`:
`result.get('value')` and `result.get('nodes', [])` (already decoded by
`NodeInfo.from_dict`). -/
structure LookupResponse where
  value : Option String := none
  nodes : List NodeInfo := []
  deriving Repr, DecidableEq

/-- Outcome of one query issued by the lookup. -/
inductive ReqOutcome where
  | exc
  | noResp
  | resp (r : LookupResponse)
  deriving Repr, DecidableEq

/-- Routing-table mutations issued during a lookup, in program order. -/
inductive TableEvent where
  | removed (id : Bytes)
  | added (id : Bytes)
  | seen (id : Bytes)
  deriving Repr, DecidableEq

/-- `LookupResult` dataclass from `src/src/dht/kademlia.py`. -/
structure LookupResult where
  target_id : Bytes
  closest_nodes : List NodeInfo
  value : Option String := none
  found : Bool := false
  deriving Repr, DecidableEq

/-- Mutable state of the lookup loop. -/
structure LookupSt where
  table : RoutingTable
  queried : List Bytes
  pending : List NodeInfo
  trace : List TableEvent
  found_value : Option String
  deriving Repr

/-- Select up to `ALPHA` un-queried contacts from `pending`, in pending
order (the `for node_id, node in list(pending.items())` collection loop). -/
def selectToQuery (queried : List Bytes) (pending : List NodeInfo) : List NodeInfo :=
  (pending.filter fun n => ¬ queried.contains n.node_id).take ALPHA

/-- Process the gathered results in order.  Mirrors the
`for i, result in enumerate(results)` loop: an exception removes the
contact from the routing table; `None` is skipped; on `FIND_VALUE` a
payload carrying a value records it and breaks out; otherwise returned
contacts that are still un-queried are merged into `pending` and offered
to the routing table. -/
def processResults (find_value : Bool) (now : Nat) :
    List (NodeInfo × ReqOutcome) → LookupSt → LookupSt
  | [], st => st
  | (node, out) :: rest, st =>
    match out with
    | .exc =>
      let (_, t2) := st.table.remove_node node.node_id
      processResults find_value now rest
        { st with table := t2, trace := st.trace ++ [.removed node.node_id] }
    | .noResp => processResults find_value now rest st
    | .resp r =>
      if find_value ∧ r.value.isSome then
        { st with found_value := r.value }
      else
        let st2 := r.nodes.foldl (fun (acc : LookupSt) nd =>
          if ¬ acc.queried.contains nd.node_id then
            let (_, t2) := acc.table.add_node now nd
            { acc with pending := dictInsert nd acc.pending, table := t2,
                       trace := acc.trace ++ [.added nd.node_id] }
          else acc) st
        processResults find_value now rest st2

/-- One-step body plus recursion of the `while pending:` loop, fuelled.
Each iteration: select up to α un-queried contacts; mark them queried;
query them (a `resp` outcome marks the sender seen, as `_send_find_node`
does); process the results; stop early when a value was found; drop the
queried contacts from `pending`. -/
def lookupLoop (net : Bytes → ReqOutcome) (find_value : Bool) (now : Nat) :
    Nat → LookupSt → LookupSt
  | 0, st => st
  | fuel + 1, st =>
    if st.pending.isEmpty then st
    else
      let to_query := selectToQuery st.queried st.pending
      if to_query.isEmpty then st
      else
        let queried2 := st.queried ++ to_query.map (·.node_id)
        let afterSend := to_query.foldl (fun (acc : LookupSt) n =>
          match net n.node_id with
          | .resp _ =>
            { acc with table := acc.table.mark_node_seen now n.node_id,
                       trace := acc.trace ++ [.seen n.node_id] }
          | _ => acc) { st with queried := queried2 }
        let results := to_query.map fun n => (n, net n.node_id)
        let st2 := processResults find_value now results afterSend
        if st2.found_value.isSome then st2
        else
          let pending3 :=
            st2.pending.filter (fun n => ¬ (to_query.map (·.node_id)).contains n.node_id)
          let st3 := { st2 with pending := pending3 }
          lookupLoop net find_value now fuel st3

/-- `KademliaNode._iterative_lookup`.  Returns the `LookupResult`, the
final routing table, the trace of table mutations issued during the loop,
and the set of queried contacts (for specification purposes).  `fuel`
bounds the number of `while` iterations (the ID space is finite, so the
real loop terminates; every theorem below holds for every fuel). -/
def iterativeLookup (net : Bytes → ReqOutcome) (find_value : Bool) (now fuel : Nat)
    (target_id : Bytes) (t : RoutingTable) :
    LookupResult × RoutingTable × List TableEvent × List Bytes :=
  let closest := t.find_closest_nodes target_id K
  if closest.isEmpty then
    ({ target_id := target_id, closest_nodes := [] }, t, [], [])
  else
    let st0 : LookupSt :=
      { table := t, queried := [], pending := closest.foldl (fun acc n => dictInsert n acc) [],
        trace := [], found_value := none }
    let stF := lookupLoop net find_value now fuel st0
    let final0 := stF.queried.filterMap fun id => stF.table.get_node id
    let final := (final0.insertionSort fun a b =>
      xor_distance target_id a.node_id ≤ xor_distance target_id b.node_id).take K
    ({ target_id := target_id, closest_nodes := final,
       value := stF.found_value, found := stF.found_value.isSome },
     stF.table, stF.trace, stF.queried)

/-! ## `KademliaNode.store` (`src/src/dht/kademlia.py`)

`storeNet id = true` stands for: the `STORE` request to the node with ID
`id` came back as a `STORE_RESPONSE` whose payload had `success = True`
(`_store_on_node` returned `True`).  Every other outcome — timeout
(`send_request` returned `None`), a wrong-typed response, `success` absent
or falsy, or an exception collected by `asyncio.gather` — makes
`_store_on_node`'s contribution not-`True`, embedded as `false`. -/

/-- `KademliaNode.store`: find the K closest nodes, send `STORE` to each,
also store locally, and report whether any remote store succeeded.  When
no nodes are known it stores locally only and returns `True`. -/
def KademliaNode.store (net : Bytes → ReqOutcome) (storeNet : Bytes → Bool)
    (now fuel : Nat) (key : Bytes) (value : String) (t : RoutingTable)
    (storage : List (Bytes × String)) :
    Bool × RoutingTable × List (Bytes × String) :=
  let (res, t2, _, _) := iterativeLookup net false now fuel key t
  let closest_nodes := res.closest_nodes
  if closest_nodes.isEmpty then
    (true, t2, (key, value) :: storage)
  else
    let successful := (closest_nodes.filter fun n => storeNet n.node_id).length
    (successful > 0, t2, (key, value) :: storage)

/-! ## Manifests (`src/src/file/manifest.py`) -/

/-- `ChunkInfo` dataclass: index, SHA-256 hex digest, size, byte offset. -/
structure ChunkInfo where
  index : Nat
  hash : String
  size : Nat
  offset : Nat
  deriving Repr, DecidableEq

/-- `FileManifest` dataclass. -/
structure FileManifest where
  name : String
  size : Nat
  info_hash : String
  chunk_size : Nat
  chunks : List ChunkInfo
  created_at : Nat := 0
  created_by : String := ""
  mime_type : String := ""
  description : String := ""
  deriving Repr, DecidableEq

/-- The `while True: data = f.read(chunk_size)` loop of `create_manifest`:
produce the `ChunkInfo` list together with the concatenation of all data
blocks fed to the incremental `file_hasher` (an incremental SHA-256 over
successive `update` calls equals the hash of the concatenation).
`f.read(n)` returns the next `min(n, remaining)` bytes, so the loop stops
on an empty read — immediately when `chunk_size = 0` or the rest is empty. -/
def manifestLoop (hash : Bytes → String) (chunk_size : Nat) (rem : Bytes)
    (idx off : Nat) : List ChunkInfo × Bytes :=
  if _h : (rem.take chunk_size).isEmpty then ([], [])
  else
    let data := rem.take chunk_size
    let (cs, bs) := manifestLoop hash chunk_size (rem.drop chunk_size) (idx + 1)
      (off + data.length)
    ({ index := idx, hash := hash data, size := data.length, offset := off } :: cs,
     data ++ bs)
termination_by rem.length
decreasing_by
  simp only [List.isEmpty_eq_true, List.take_eq_nil_iff] at _h
  push_neg at _h
  have h1 : 0 < chunk_size := Nat.pos_of_ne_zero _h.1
  have h3 : 0 < rem.length := List.length_pos.mpr _h.2
  simp only [List.length_drop]
  omega

/-- `create_manifest(file_path, node_id, chunk_size)` from
`src/src/file/manifest.py`, for a file whose content is `file` and does
not change during the single-pass read (`stat().st_size = file.length`). -/
def create_manifest (hash : Bytes → String) (file : Bytes) (name : String)
    (node_id : String := "") (chunk_size : Nat := 256 * 1024) : FileManifest :=
  { name := name
    size := file.length
    info_hash := hash (manifestLoop hash chunk_size file 0 0).2
    chunk_size := chunk_size
    chunks := (manifestLoop hash chunk_size file 0 0).1
    created_by := node_id }

/-! ## Chunk storage (`src/src/file/storage.py`)

The file system is embedded as association lists: `chunks` keyed by chunk
hash (the on-disk path `chunks/<aa>/<hex>` is a function of the hash),
`temp` keyed by temp-file name, `files` keyed by output path. -/

/-- Lookup in a string-keyed association list (file existence + content). -/
def fsLookup (key : String) (l : List (String × Bytes)) : Option Bytes :=
  (l.find? fun p => p.1 = key).map (·.2)

/-- Delete a file. -/
def fsErase (key : String) (l : List (String × Bytes)) : List (String × Bytes) :=
  l.filter fun p => p.1 ≠ key

/-- Create or overwrite a file. -/
def fsSet (key : String) (v : Bytes) (l : List (String × Bytes)) :
    List (String × Bytes) :=
  (key, v) :: fsErase key l

/-- On-disk state of a `ChunkStorage` root directory. -/
structure FS where
  chunks : List (String × Bytes) := []
  temp : List (String × Bytes) := []
  files : List (String × Bytes) := []
  deriving Repr, DecidableEq

/-- `ChunkStorage.has_chunk`: filesystem existence check. -/
def ChunkStorage.has_chunk (chunk_hash : String) (fs : FS) : Bool :=
  (fsLookup chunk_hash fs.chunks).isSome

/-- `ChunkStorage.get_chunk`: read the file; if the content no longer
hashes to its name, delete the corrupted file and return not-found. -/
def ChunkStorage.get_chunk (hash : Bytes → String) (chunk_hash : String)
    (fs : FS) : Option Bytes × FS :=
  match fsLookup chunk_hash fs.chunks with
  | none => (none, fs)
  | some data =>
    if hash data ≠ chunk_hash then
      (none, { fs with chunks := fsErase chunk_hash fs.chunks })
    else (some data, fs)

/-- `ChunkStorage.store_chunk`: refuse on hash mismatch, else write to a
temp file and rename into place. -/
def ChunkStorage.store_chunk (hash : Bytes → String) (chunk_hash : String)
    (data : Bytes) (fs : FS) : Bool × FS :=
  if hash data ≠ chunk_hash then (false, fs)
  else (true, { fs with chunks := fsSet chunk_hash data fs.chunks })

/-- The streaming loop of `reassemble_file`: fetch each chunk through
`get_chunk` (which may self-heal-delete a corrupted file) and concatenate
in manifest order; `none` when some chunk disappeared or failed its
re-hash mid-stream. -/
def streamChunks (hash : Bytes → String) :
    List ChunkInfo → FS → Option Bytes × FS
  | [], fs => (some [], fs)
  | c :: rest, fs =>
    match ChunkStorage.get_chunk hash c.hash fs with
    | (none, fs2) => (none, fs2)
    | (some d, fs2) =>
      match streamChunks hash rest fs2 with
      | (none, fs3) => (none, fs3)
      | (some tail, fs3) => (some (d ++ tail), fs3)

/-- Continuation of `reassemble_file` after the streaming loop: remove the
partial temp file when a chunk disappeared, otherwise verify the streamed
content against `manifest.info_hash` and either remove the temp file or
rename it over the output path. -/
def reassembleFinish (hash : Bytes → String) (m : FileManifest)
    (output_path : String) : Option Bytes × FS → Option String × FS
  | (none, fs2) =>
    -- chunk disappeared: the partially written temp file is removed
    (none, { fs2 with temp := fsErase (m.info_hash ++ ".tmp") fs2.temp })
  | (some content, fs2) =>
    let fs3 := { fs2 with temp := fsSet (m.info_hash ++ ".tmp") content fs2.temp }
    if hash content ≠ m.info_hash then
      (none, { fs3 with temp := fsErase (m.info_hash ++ ".tmp") fs3.temp })
    else
      (some output_path,
       { fs3 with temp := fsErase (m.info_hash ++ ".tmp") fs3.temp,
                  files := fsSet output_path content fs3.files })

/-- `ChunkStorage.reassemble_file`: check every chunk exists, stream the
chunks in index order into `temp/<info_hash>.tmp`, verify the SHA-256 of
the streamed content against `manifest.info_hash`, and only then rename
the temp file over `output_path`.  Every failure path removes the temp
file and leaves `output_path` untouched. -/
def ChunkStorage.reassemble_file (hash : Bytes → String) (m : FileManifest)
    (output_path : String) (fs : FS) : Option String × FS :=
  if m.chunks.all (fun c => ChunkStorage.has_chunk c.hash fs) then
    reassembleFinish hash m output_path (streamChunks hash m.chunks fs)
  else (none, fs)

/-! ## Transfer framing (`src/backend/src/transfer/protocol.py`) -/

/-- `TransferMessageType` enum. -/
inductive TransferMessageType where
  | REQUEST_CHUNK
  | CHUNK_DATA
  | CHUNK_NOT_FOUND
  | REQUEST_MANIFEST
  | MANIFEST_DATA
  | MANIFEST_NOT_FOUND
  | ERROR
  | PING
  | PONG
  deriving Repr, DecidableEq

/-- `TransferMessageType(s)`: the enum constructor succeeds exactly on the
nine member values and raises `ValueError` otherwise. -/
def TransferMessageType.ofString : String → Option TransferMessageType
  | "REQUEST_CHUNK" => some .REQUEST_CHUNK
  | "CHUNK_DATA" => some .CHUNK_DATA
  | "CHUNK_NOT_FOUND" => some .CHUNK_NOT_FOUND
  | "REQUEST_MANIFEST" => some .REQUEST_MANIFEST
  | "MANIFEST_DATA" => some .MANIFEST_DATA
  | "MANIFEST_NOT_FOUND" => some .MANIFEST_NOT_FOUND
  | "ERROR" => some .ERROR
  | "PING" => some .PING
  | "PONG" => some .PONG
  | _ => none

/-- A JSON header value: a string or anything else. -/
inductive HVal where
  | str (s : String)
  | nonStr
  deriving Repr, DecidableEq

/-- A decoded JSON header document. -/
abbrev Header := List (String × HVal)

/-- A parsed JSON document: an object, or some non-object value (on which
`dict.pop` would raise `TypeError`). -/
inductive JsonVal where
  | obj (h : Header)
  | nonObj
  deriving Repr, DecidableEq

/-- Key lookup in a header object. -/
def headerLookup (key : String) (h : Header) : Option HVal :=
  (h.find? fun p => p.1 = key).map (·.2)

/-- `dict.pop(key, None)`: drop the key. -/
def headerErase (key : String) (h : Header) : Header :=
  h.filter fun p => p.1 ≠ key

/-- The exceptions the body of `from_reader` can raise. -/
inductive PyErr where
  | incompleteRead
  | valueError
  | typeError
  | keyError
  deriving Repr, DecidableEq

/-- `reader.readexactly(n)`: the next `n` bytes of the stream, or
`IncompleteReadError` when the stream ends first. -/
def readexactly (n : Nat) (s : Bytes) : Except PyErr (Bytes × Bytes) :=
  if s.length < n then .error .incompleteRead else .ok (s.take n, s.drop n)

/-- `TransferMessage` dataclass: type, residual headers, payload bytes. -/
structure TransferMessage where
  type : TransferMessageType
  headers : Header
  data : Bytes := []
  deriving Repr, DecidableEq

/-- The `try:` body of `TransferMessage.from_reader`, step for step.
`jsonParse` stands for `json.loads(header_bytes.decode('utf-8'))`: `none`
when UTF-8 decoding or JSON parsing raises, otherwise the decoded value. -/
def fromReaderBody (jsonParse : Bytes → Option JsonVal) (s : Bytes) :
    Except PyErr (TransferMessage × Bytes) :=
  match readexactly 4 s with
  | .error e => .error e
  | .ok (length_bytes, s1) =>
    let total_length := bytes_to_int length_bytes
    if total_length > 100 * 1024 * 1024 then .error .valueError
    else
      match readexactly 4 s1 with
      | .error e => .error e
      | .ok (header_length_bytes, s2) =>
        let header_length := bytes_to_int header_length_bytes
        match readexactly header_length s2 with
        | .error e => .error e
        | .ok (header_bytes, s3) =>
          match jsonParse header_bytes with
          | none => .error .valueError
          | some hv =>
            let data_length : Int := (total_length : Int) - (header_length : Int)
            match (if data_length > 0 then readexactly data_length.toNat s3
                   else .ok (([] : Bytes), s3)) with
            | .error e => .error e
            | .ok (data, s4) =>
              match hv with
              | .nonObj => .error .typeError
              | .obj hdr =>
                match headerLookup "type" hdr with
                | none => .error .keyError
                | some .nonStr => .error .valueError
                | some (.str sv) =>
                  match TransferMessageType.ofString sv with
                  | none => .error .valueError
                  | some ty =>
                    .ok ({ type := ty,
                           headers := headerErase "data_length" (headerErase "type" hdr),
                           data := data }, s4)

/-- `TransferMessage.from_reader`: the body wrapped in the
`except asyncio.IncompleteReadError: return None` /
`except Exception: return None` handlers.  Returns the message together
with the unconsumed rest of the stream. -/
def TransferMessage.from_reader (jsonParse : Bytes → Option JsonVal)
    (s : Bytes) : Option (TransferMessage × Bytes) :=
  match fromReaderBody jsonParse s with
  | .ok r => some r
  | .error _ => none

/-! ## Concrete data used by counterexamples and witnesses -/

/-- The all-zero 20-byte node ID. -/
def zeros20 : Bytes := List.replicate 20 0

/-- The 20-byte ID `00…0001` (only the least significant bit set). -/
def oneID : Bytes := List.replicate 19 0 ++ [1]

/-- The 20-byte ID `00…0002`. -/
def twoID : Bytes := List.replicate 19 0 ++ [2]

/-- A fresh routing table for the all-zero node. -/
def tbl0 : RoutingTable := RoutingTable.init zeros20

/-- A contact with ID `oneID`. -/
def nodeA : NodeInfo := { node_id := oneID, ip := "10.0.0.1", port := 9000 }

/-- `tbl0` after inserting `nodeA`. -/
def tblA : RoutingTable := (tbl0.add_node 0 nodeA).2

/-- A network in which every request times out: `send_request` returns
`None` for every contact, so `_send_find_node` returns `None`. -/
def netNone : Bytes → ReqOutcome := fun _ => .noResp

/-- A network in which every request task raises an exception. -/
def netExc : Bytes → ReqOutcome := fun _ => .exc

/-- A concrete k-bucket holding 20 distinct contacts (full at `K = 20`). -/
def fullBucket : KBucket :=
  { k := 20
    nodes := (List.range 20).map fun i =>
      { node_id := List.replicate 19 0 ++ [i + 1], ip := "10.0.0.2", port := 9100 + i }
    replacement_cache := [] }

/-- A 21st contact, absent from `fullBucket`. -/
def nodeX : NodeInfo := { node_id := List.replicate 19 0 ++ [100], ip := "10.0.0.3", port := 9999 }

/-- A concrete stand-in digest function for evaluating the storage layer
at explicit inputs.  The code under test only ever compares digest strings
for equality, so its control flow is uniform in the choice of digest
function; this one is injective on byte strings. -/
def demoHash : Bytes → String :=
  fun bs => toString (bs.foldl (fun a b => a * 256 + b + 1) 0)

/-- A store holding one corrupted chunk: the file named `"x"` has content
`[1]`, which does not hash back to `"x"`. -/
def corruptFS : FS := { chunks := [("x", [1])] }

/-- The single (consistent) chunk of the lying manifest below. -/
def c5chunk : ChunkInfo := ChunkInfo.mk 0 (demoHash [42]) 1 0

/-- A manifest whose digests are all consistent with its one 1-byte chunk
but whose `size` field claims 999 bytes. -/
def c5manifest : FileManifest :=
  FileManifest.mk "f" 999 (demoHash [42]) 262144 [c5chunk] 0 "" "" ""

/-- A store holding exactly the 1-byte chunk of `c5manifest`. -/
def c5fs : FS := { chunks := [(demoHash [42], [42])] }

/-- The manifest of an empty file under `demoHash`. -/
def emptyManifest : FileManifest :=
  FileManifest.mk "e" 0 (demoHash []) 262144 [] 0 "" "" ""

/-- An empty chunk store. -/
def emptyFS : FS := {}

/-! ## Specification-side definitions used by the theorems below -/

/-- The three mutating routing-table operations. -/
inductive TableOp where
  | add (now : Nat) (node : NodeInfo)
  | remove (id : Bytes)
  | seen (now : Nat) (id : Bytes)
  deriving Repr

/-- Apply one table operation (dropping the returned value). -/
def RoutingTable.applyOp (t : RoutingTable) : TableOp → RoutingTable
  | .add now node => (t.add_node now node).2
  | .remove id => (t.remove_node id).2
  | .seen now id => t.mark_node_seen now id

/-- Apply a sequence of table operations. -/
def RoutingTable.applyOps (t : RoutingTable) (ops : List TableOp) : RoutingTable :=
  ops.foldl RoutingTable.applyOp t

/-- Invariant: neither the live entries nor the replacement cache of a
bucket hold the table's own ID. -/
def NoSelfBucket (self : Bytes) (b : KBucket) : Prop :=
  (∀ n ∈ b.nodes, n.node_id ≠ self) ∧ (∀ n ∈ b.replacement_cache, n.node_id ≠ self)

/-- Invariant for the whole table. -/
def NoSelf (t : RoutingTable) : Prop :=
  ∀ b ∈ t.buckets, NoSelfBucket t.node_id b

/-- The per-lookup removal invariant: an ID has a `removed` event in the
trace exactly when it was queried and its request raised an exception. -/
def RemInv (net : Bytes → ReqOutcome) (st : LookupSt) : Prop :=
  (∀ id ∈ st.queried, net id = .exc → TableEvent.removed id ∈ st.trace) ∧
  (∀ id, TableEvent.removed id ∈ st.trace → net id = .exc ∧ id ∈ st.queried)

end P2P

namespace P2P

/-! ## Claim C1 — refresh targets (`RoutingTable.get_refresh_targets`) -/

set_option maxRecDepth 16000

/-- C1: the claim states that each ID emitted by `get_refresh_targets` for
an empty bucket `i` lies in bucket `i` (highest set bit of the xor with
self at position `159 − i`).  The code instead emits `self xor urandom`
without forcing any bit, and its own inline comment ("Set bit at position
(159 - i) and randomize the rest") describes the missing step.  Failing
input: self = `00…00`, a fresh table (every bucket empty), and an
`os.urandom` draw of `00…0001` while visiting bucket 0.  The ID emitted
for bucket 0 then lies in bucket 159, not bucket 0. -/
theorem C1_refresh_target_misses_bucket :
    (tbl0.get_refresh_targets (fun _ => oneID)).get? 0 = some oneID ∧
    get_bucket_index zeros20 oneID = 159 ∧ (159 : Int) ≠ 0 := by
  refine ⟨by decide, by decide, by decide⟩

/-! ## Claim C4 — full-bucket insertion (`KBucket.add_node`) -/

/-- The cache-trimming loop drops exactly the oldest surplus entries. -/
theorem trimFront_eq_drop (k : Nat) (l : List NodeInfo) :
    trimFront k l = l.drop (l.length - k) := by
  induction l with
  | nil => simp [trimFront]
  | cons x t ih =>
    simp only [trimFront, List.length_cons]
    by_cases h : t.length + 1 > k
    · rw [if_pos h, ih]
      have : t.length + 1 - k = (t.length - k) + 1 := by omega
      rw [this, List.drop_succ_cons]
    · rw [if_neg h]
      have : t.length + 1 - k = 0 := by omega
      rw [this, List.drop_zero]

/-- The trimming loop leaves at most `k` entries. -/
theorem trimFront_length_le (k : Nat) (l : List NodeInfo) :
    (trimFront k l).length ≤ k := by
  rw [trimFront_eq_drop, List.length_drop]
  omega

/-- Inserting into an ordered dict keeps the key present. -/
theorem keyMem_dictInsert (v : NodeInfo) (l : List NodeInfo) :
    keyMem v.node_id (dictInsert v l) = true := by
  unfold dictInsert
  by_cases h : keyMem v.node_id l
  · rw [if_pos h]
    unfold keyMem at h ⊢
    rw [List.any_eq_true] at h ⊢
    obtain ⟨n, hn, hid⟩ := h
    exact ⟨v, List.mem_map.mpr ⟨n, hn, by simp [decide_eq_true_eq.mp hid]⟩, by simp⟩
  · rw [if_neg h]
    unfold keyMem
    rw [List.any_eq_true]
    exact ⟨v, by simp, by simp⟩

/-- Dict insertion of an absent key appends at the newest position. -/
theorem dictInsert_of_not_mem (v : NodeInfo) (l : List NodeInfo)
    (h : keyMem v.node_id l = false) : dictInsert v l = l ++ [v] := by
  unfold dictInsert
  rw [h]
  simp

/-- Dict insertion of a present key keeps the length. -/
theorem dictInsert_length_of_mem (v : NodeInfo) (l : List NodeInfo)
    (h : keyMem v.node_id l = true) : (dictInsert v l).length = l.length := by
  unfold dictInsert
  rw [h]
  simp

/-- `moveToEnd` permutes the entries. -/
theorem moveToEnd_perm (id : Bytes) (l : List NodeInfo) :
    List.Perm (moveToEnd id l) l := by
  unfold moveToEnd
  have h : (fun n : NodeInfo => decide (n.node_id = id)) =
      fun n : NodeInfo => !decide (n.node_id ≠ id) := by
    funext n
    by_cases hn : n.node_id = id <;> simp [hn]
  rw [h]
  exact List.filter_append_perm _ l

/-- `moveToEnd` keeps the length. -/
theorem moveToEnd_length (id : Bytes) (l : List NodeInfo) :
    (moveToEnd id l).length = l.length :=
  (moveToEnd_perm id l).length_eq

/-- `touchEntry` keeps the length. -/
theorem touchEntry_length (id : Bytes) (now : Nat) (l : List NodeInfo) :
    (touchEntry id now l).length = l.length := by
  simp [touchEntry]

/-- Filtering out a present key strictly shrinks the list. -/
theorem length_filter_ne_lt (id : Bytes) (l : List NodeInfo)
    (h : keyMem id l = true) :
    (l.filter fun n => n.node_id ≠ id).length < l.length := by
  have hsplit := List.length_eq_length_filter_add (l := l)
    (fun n : NodeInfo => decide (n.node_id ≠ id))
  have hpos : 0 < (l.filter fun n : NodeInfo => !decide (n.node_id ≠ id)).length := by
    unfold keyMem at h
    rw [List.any_eq_true] at h
    obtain ⟨n, hn, hid⟩ := h
    have : n ∈ l.filter fun n : NodeInfo => !decide (n.node_id ≠ id) := by
      rw [List.mem_filter]
      exact ⟨hn, by simp [decide_eq_true_eq.mp hid]⟩
    exact List.length_pos.mpr (List.ne_nil_of_mem this)
  omega

/-- C4: inserting a new contact `X` into a full bucket (`K = 20` entries)
does not change the bucket membership, records `X` in the replacement
cache, keeps the cache FIFO-bounded at `≤ K`, and returns the bucket's
oldest contact; and every bucket operation preserves `|B| ≤ 20`. -/
theorem C4_full_bucket_insert (b : KBucket) (X : NodeInfo) (now : Nat)
    (hk : b.k = 20) (hfull : b.nodes.length = 20)
    (hnew : keyMem X.node_id b.nodes = false)
    (hcache : b.replacement_cache.length ≤ 20) :
    (b.add_node now X).2.nodes = b.nodes ∧
    (b.add_node now X).1 = b.nodes.head? ∧
    (b.add_node now X).1.isSome = true ∧
    keyMem X.node_id (b.add_node now X).2.replacement_cache = true ∧
    (b.add_node now X).2.replacement_cache.length ≤ 20 ∧
    (∀ (c : KBucket) (n : NodeInfo) (m : Nat) (id : Bytes), c.k = 20 →
      c.nodes.length ≤ 20 →
      (c.add_node m n).2.nodes.length ≤ 20 ∧
      (c.remove_node id).2.nodes.length ≤ 20 ∧
      (c.mark_node_seen m id).nodes.length ≤ 20) := by
  have hne : b.nodes ≠ [] := by
    intro h
    rw [h] at hfull
    simp at hfull
  have hbranch : b.add_node now X =
      (b.nodes.head?,
       { b with replacement_cache := trimFront b.k (dictInsert X b.replacement_cache) }) := by
    unfold KBucket.add_node
    rw [hnew]
    simp only [Bool.false_eq_true, if_false, hfull, hk]
    norm_num
  refine ⟨by rw [hbranch], by rw [hbranch], ?_, ?_, ?_, ?_⟩
  · rw [hbranch]
    simp only
    cases h : b.nodes with
    | nil => exact absurd h hne
    | cons a l => simp
  · rw [hbranch]
    simp only
    by_cases hm : keyMem X.node_id b.replacement_cache
    · have hlen : (dictInsert X b.replacement_cache).length ≤ b.k := by
        rw [dictInsert_length_of_mem X _ hm, hk]
        exact hcache
      have : trimFront b.k (dictInsert X b.replacement_cache) =
          dictInsert X b.replacement_cache := by
        rw [trimFront_eq_drop]
        have : (dictInsert X b.replacement_cache).length - b.k = 0 := by omega
        rw [this, List.drop_zero]
      rw [this]
      exact keyMem_dictInsert X b.replacement_cache
    · rw [dictInsert_of_not_mem X _ (by simpa using hm), trimFront_eq_drop]
      have hle : (b.replacement_cache ++ [X]).length - b.k ≤ b.replacement_cache.length := by
        simp only [List.length_append, List.length_singleton]
        omega
      rw [List.drop_append_of_le_length hle]
      unfold keyMem
      rw [List.any_eq_true]
      exact ⟨X, by simp, by simp⟩
  · rw [hbranch]
    simp only
    have h1 := trimFront_length_le b.k (dictInsert X b.replacement_cache)
    omega
  · intro c n m id hck hcle
    refine ⟨?_, ?_, ?_⟩
    · unfold KBucket.add_node
      by_cases h1 : keyMem n.node_id c.nodes
      · rw [if_pos h1]
        simp only
        rw [moveToEnd_length, touchEntry_length]
        exact hcle
      · rw [if_neg h1]
        by_cases h2 : c.nodes.length < c.k
        · rw [if_pos h2]
          simp only [List.length_append, List.length_singleton]
          omega
        · rw [if_neg h2]
          exact hcle
    · unfold KBucket.remove_node
      by_cases h1 : keyMem id c.nodes
      · rw [if_pos h1]
        have hlt := length_filter_ne_lt id c.nodes h1
        cases c.replacement_cache with
        | nil =>
          simp only
          omega
        | cons r rest =>
          simp only [List.length_append, List.length_singleton]
          omega
      · rw [if_neg h1]
        exact hcle
    · unfold KBucket.mark_node_seen
      by_cases h1 : keyMem id c.nodes
      · rw [if_pos h1]
        simp only
        rw [moveToEnd_length, touchEntry_length]
        exact hcle
      · rw [if_neg h1]
        exact hcle

/-- Witness for `C4_full_bucket_insert`: a concrete full bucket of 20
contacts receiving a 21st. -/
theorem C4_full_bucket_insert_witness :
    (fullBucket.k = 20 ∧ fullBucket.nodes.length = 20 ∧
     keyMem nodeX.node_id fullBucket.nodes = false ∧
     fullBucket.replacement_cache.length ≤ 20) ∧
    (fullBucket.add_node 7 nodeX).2.nodes = fullBucket.nodes := by
  refine ⟨⟨rfl, by decide, by decide, by decide⟩, ?_⟩
  exact (C4_full_bucket_insert fullBucket nodeX 7 rfl (by decide) (by decide) (by decide)).1

/-! ## Claim C9 — a routing table never contains its own node ID -/

theorem mem_moveToEnd {n : NodeInfo} {id : Bytes} {l : List NodeInfo}
    (h : n ∈ moveToEnd id l) : n ∈ l :=
  (moveToEnd_perm id l).mem_iff.mp h

theorem node_id_of_mem_touchEntry {n : NodeInfo} {id : Bytes} {now : Nat}
    {l : List NodeInfo} (h : n ∈ touchEntry id now l) :
    ∃ m ∈ l, n.node_id = m.node_id := by
  unfold touchEntry at h
  rw [List.mem_map] at h
  obtain ⟨m, hm, heq⟩ := h
  refine ⟨m, hm, ?_⟩
  by_cases hid : m.node_id = id
  · rw [if_pos hid] at heq
    rw [← heq]
    rfl
  · rw [if_neg hid] at heq
    rw [← heq]

theorem mem_dictInsert {n v : NodeInfo} {l : List NodeInfo}
    (h : n ∈ dictInsert v l) : n ∈ l ∨ n = v := by
  unfold dictInsert at h
  by_cases hm : keyMem v.node_id l
  · rw [if_pos hm, List.mem_map] at h
    obtain ⟨m, hmem, heq⟩ := h
    by_cases hid : m.node_id = v.node_id
    · rw [if_pos hid] at heq
      exact Or.inr heq.symm
    · rw [if_neg hid] at heq
      exact Or.inl (heq ▸ hmem)
  · rw [if_neg hm, List.mem_append] at h
    rcases h with h | h
    · exact Or.inl h
    · exact Or.inr (List.mem_singleton.mp h)

theorem mem_trimFront {n : NodeInfo} {k : Nat} {l : List NodeInfo}
    (h : n ∈ trimFront k l) : n ∈ l := by
  rw [trimFront_eq_drop] at h
  exact List.mem_of_mem_drop h

/-- `KBucket.add_node` with a non-self contact preserves the invariant. -/
theorem KBucket.add_node_noSelf {self : Bytes} {b : KBucket} {node : NodeInfo}
    {now : Nat} (hb : NoSelfBucket self b) (hnode : node.node_id ≠ self) :
    NoSelfBucket self (b.add_node now node).2 := by
  unfold KBucket.add_node
  by_cases h1 : keyMem node.node_id b.nodes
  · rw [if_pos h1]
    refine ⟨?_, hb.2⟩
    intro n hn
    obtain ⟨m, hm, heq⟩ := node_id_of_mem_touchEntry (mem_moveToEnd hn)
    rw [heq]
    exact hb.1 m hm
  · rw [if_neg h1]
    by_cases h2 : b.nodes.length < b.k
    · rw [if_pos h2]
      refine ⟨?_, hb.2⟩
      intro n hn
      rw [List.mem_append] at hn
      rcases hn with hn | hn
      · exact hb.1 n hn
      · rw [List.mem_singleton.mp hn]
        exact hnode
    · rw [if_neg h2]
      refine ⟨hb.1, ?_⟩
      intro n hn
      rcases mem_dictInsert (mem_trimFront hn) with hn | rfl
      · exact hb.2 n hn
      · exact hnode

/-- `KBucket.remove_node` preserves the invariant. -/
theorem KBucket.remove_node_noSelf {self : Bytes} {b : KBucket} {id : Bytes}
    (hb : NoSelfBucket self b) : NoSelfBucket self (b.remove_node id).2 := by
  unfold KBucket.remove_node
  by_cases h1 : keyMem id b.nodes
  · rw [if_pos h1]
    cases hc : b.replacement_cache with
    | nil =>
      refine ⟨?_, ?_⟩
      · intro n hn
        exact hb.1 n (List.mem_of_mem_filter hn)
      · intro n hn
        simp only at hn
        exact absurd hn (List.not_mem_nil n)
    | cons r rest =>
      refine ⟨?_, ?_⟩
      · intro n hn
        simp only at hn
        rw [List.mem_append] at hn
        rcases hn with hn | hn
        · exact hb.1 n (List.mem_of_mem_filter hn)
        · rw [List.mem_singleton.mp hn]
          exact hb.2 r (hc ▸ List.mem_cons_self r rest)
      · intro n hn
        simp only at hn
        exact hb.2 n (hc ▸ List.mem_cons_of_mem r hn)
  · rw [if_neg h1]
    exact hb

/-- `KBucket.mark_node_seen` preserves the invariant. -/
theorem KBucket.mark_node_seen_noSelf {self : Bytes} {b : KBucket} {id : Bytes}
    {now : Nat} (hb : NoSelfBucket self b) :
    NoSelfBucket self (b.mark_node_seen now id) := by
  unfold KBucket.mark_node_seen
  by_cases h1 : keyMem id b.nodes
  · rw [if_pos h1]
    refine ⟨?_, hb.2⟩
    intro n hn
    obtain ⟨m, hm, heq⟩ := node_id_of_mem_touchEntry (mem_moveToEnd hn)
    rw [heq]
    exact hb.1 m hm
  · rw [if_neg h1]
    exact hb

/-- `withBucket` does not change the node's own ID field. -/
theorem RoutingTable.withBucket_node_id (t : RoutingTable) (other_id : Bytes)
    (d : α) (f : KBucket → α × KBucket) :
    (t.withBucket other_id d f).2.node_id = t.node_id := by
  rcases hi : t.bucketIndexFor other_id with _ | i
  · simp [RoutingTable.withBucket, hi]
  · rcases hg : t.buckets[i]? with _ | b
    · simp [RoutingTable.withBucket, hi, hg]
    · simp [RoutingTable.withBucket, hi, hg]

/-- `withBucket` preserves the table invariant when `f` preserves the
bucket invariant. -/
theorem RoutingTable.withBucket_noSelf {t : RoutingTable} {other_id : Bytes}
    {d : α} {f : KBucket → α × KBucket} (ht : NoSelf t)
    (hf : ∀ b, NoSelfBucket t.node_id b → NoSelfBucket t.node_id (f b).2) :
    NoSelf (t.withBucket other_id d f).2 := by
  rcases hi : t.bucketIndexFor other_id with _ | i
  · simpa [RoutingTable.withBucket, hi] using ht
  · rcases hg : t.buckets[i]? with _ | b
    · simpa [RoutingTable.withBucket, hi, hg] using ht
    · have hset : (t.withBucket other_id d f).2 =
          { t with buckets := t.buckets.set i (f b).2 } := by
        simp [RoutingTable.withBucket, hi, hg]
      rw [hset]
      intro b2 hb2
      simp only at hb2
      rcases List.mem_or_eq_of_mem_set hb2 with hb2 | rfl
      · exact ht b2 hb2
      · exact hf b (ht b (List.getElem?_mem hg))

/-- One table operation preserves both the invariant and the own-ID. -/
theorem RoutingTable.applyOp_noSelf {t : RoutingTable} {op : TableOp}
    (ht : NoSelf t) :
    NoSelf (t.applyOp op) ∧ (t.applyOp op).node_id = t.node_id := by
  cases op with
  | add now node =>
    simp only [RoutingTable.applyOp, RoutingTable.add_node]
    by_cases h1 : node.node_id = t.node_id
    · rw [if_pos h1]
      exact ⟨ht, rfl⟩
    · rw [if_neg h1]
      exact ⟨RoutingTable.withBucket_noSelf ht (fun b hb => KBucket.add_node_noSelf hb h1),
             RoutingTable.withBucket_node_id ..⟩
  | remove id =>
    simp only [RoutingTable.applyOp, RoutingTable.remove_node]
    exact ⟨RoutingTable.withBucket_noSelf ht (fun b hb => KBucket.remove_node_noSelf hb),
           RoutingTable.withBucket_node_id ..⟩
  | seen now id =>
    simp only [RoutingTable.applyOp, RoutingTable.mark_node_seen]
    exact ⟨RoutingTable.withBucket_noSelf ht (fun b hb => KBucket.mark_node_seen_noSelf hb),
           RoutingTable.withBucket_node_id ..⟩

/-- The invariant and own-ID survive any operation sequence. -/
theorem RoutingTable.applyOps_noSelf {t : RoutingTable} (ops : List TableOp)
    (ht : NoSelf t) :
    NoSelf (t.applyOps ops) ∧ (t.applyOps ops).node_id = t.node_id := by
  induction ops generalizing t with
  | nil => exact ⟨ht, rfl⟩
  | cons op rest ih =>
    have h1 := @RoutingTable.applyOp_noSelf t op ht
    have h2 := ih h1.1
    unfold RoutingTable.applyOps at h2 ⊢
    simp only [List.foldl_cons]
    exact ⟨h2.1, h2.2.trans h1.2⟩

/-- C9: inserting our own ID is a no-op returning `None`, and after any
sequence of `add_node` / `remove_node` / `mark_node_seen` operations on a
fresh routing table no bucket holds a contact with the table's own ID. -/
theorem C9_never_contains_self :
    (∀ (t : RoutingTable) (now : Nat) (node : NodeInfo),
      node.node_id = t.node_id → t.add_node now node = (none, t)) ∧
    (∀ (node_id : Bytes) (k : Nat) (ops : List TableOp),
      ∀ b ∈ ((RoutingTable.init node_id k).applyOps ops).buckets,
        ∀ n ∈ b.nodes, n.node_id ≠ node_id) := by
  constructor
  · intro t now node h
    unfold RoutingTable.add_node
    rw [if_pos h]
  · intro node_id k ops
    have hinit : NoSelf (RoutingTable.init node_id k) := by
      intro b hb
      unfold RoutingTable.init at hb
      simp only at hb
      have := List.eq_of_mem_replicate hb
      rw [this]
      exact ⟨fun n hn => absurd hn (List.not_mem_nil n),
             fun n hn => absurd hn (List.not_mem_nil n)⟩
    have h := RoutingTable.applyOps_noSelf ops hinit
    intro b hb n hn
    have := (h.1 b hb).1 n hn
    rw [h.2] at this
    exact this

/-- Witness for `C9_never_contains_self`: adding the table's own contact to
a concrete table is a no-op, and a concrete op sequence leaves no self ID. -/
theorem C9_never_contains_self_witness :
    tbl0.add_node 3 { node_id := zeros20, ip := "127.0.0.1", port := 1 } = (none, tbl0) :=
  C9_never_contains_self.1 tbl0 3 _ rfl

/-! ## Claim C2 — failed contacts and the routing table in `_iterative_lookup` -/

/-- A fold whose step keeps `queried` and appends only non-`removed`
events keeps `queried` and the set of `removed` events. -/
theorem foldl_trace_aux {β : Type} (g : LookupSt → β → LookupSt)
    (hg : ∀ acc x, (g acc x).queried = acc.queried ∧
      ∃ extra : List TableEvent, (g acc x).trace = acc.trace ++ extra ∧
        ∀ e ∈ extra, ∀ id, e ≠ TableEvent.removed id) :
    ∀ (l : List β) (acc : LookupSt),
      (l.foldl g acc).queried = acc.queried ∧
      ∃ extra : List TableEvent, (l.foldl g acc).trace = acc.trace ++ extra ∧
        ∀ e ∈ extra, ∀ id, e ≠ TableEvent.removed id := by
  intro l
  induction l with
  | nil =>
    intro acc
    exact ⟨by simp, [], by simp, by simp⟩
  | cons x rest ih =>
    intro acc
    obtain ⟨hq1, e1, he1, hne1⟩ := hg acc x
    obtain ⟨hq2, e2, he2, hne2⟩ := ih (g acc x)
    refine ⟨by rw [List.foldl_cons, hq2, hq1], e1 ++ e2, ?_, ?_⟩
    · rw [List.foldl_cons, he2, he1, List.append_assoc]
    · intro e he id
      rw [List.mem_append] at he
      rcases he with he | he
      · exact hne1 e he id
      · exact hne2 e he id

/-- `processResults` in `FIND_NODE` mode: `queried` is untouched, the
trace only grows, a `removed` event is appended for exactly the
exception outcomes. -/
theorem processResults_spec (now : Nat) :
    ∀ (results : List (NodeInfo × ReqOutcome)) (st : LookupSt),
      (processResults false now results st).queried = st.queried ∧
      (∀ e ∈ st.trace, e ∈ (processResults false now results st).trace) ∧
      (∀ p ∈ results, p.2 = ReqOutcome.exc →
        TableEvent.removed p.1.node_id ∈ (processResults false now results st).trace) ∧
      (∀ id, TableEvent.removed id ∈ (processResults false now results st).trace →
        TableEvent.removed id ∈ st.trace ∨
          ∃ p ∈ results, p.1.node_id = id ∧ p.2 = ReqOutcome.exc) := by
  intro results
  induction results with
  | nil =>
    intro st
    refine ⟨rfl, fun e he => he, ?_, ?_⟩
    · intro p hp
      exact absurd hp (List.not_mem_nil p)
    · intro id hid
      exact Or.inl hid
  | cons pr rest ih =>
    intro st
    obtain ⟨node, out⟩ := pr
    cases out with
    | exc =>
      have hstep : processResults false now ((node, ReqOutcome.exc) :: rest) st =
          processResults false now rest
            { st with table := (st.table.remove_node node.node_id).2,
                      trace := st.trace ++ [TableEvent.removed node.node_id] } := by
        simp [processResults]
      set st' : LookupSt :=
        { st with table := (st.table.remove_node node.node_id).2,
                  trace := st.trace ++ [TableEvent.removed node.node_id] } with hst'
      obtain ⟨ihq, ihmono, ihexc, ihrev⟩ := ih st'
      rw [hstep]
      refine ⟨ihq, ?_, ?_, ?_⟩
      · intro e he
        exact ihmono e (by simp [hst', he])
      · intro p hp hpe
        rcases List.mem_cons.mp hp with rfl | hp
        · exact ihmono (TableEvent.removed node.node_id) (by simp [hst'])
        · exact ihexc p hp hpe
      · intro id hid
        rcases ihrev id hid with hid | ⟨p, hp, hpid, hpe⟩
        · rw [hst'] at hid
          simp only [List.mem_append, List.mem_singleton] at hid
          rcases hid with hid | hid
          · exact Or.inl hid
          · refine Or.inr ⟨(node, ReqOutcome.exc), List.mem_cons_self .., ?_, rfl⟩
            injection hid with h
            exact h.symm
        · exact Or.inr ⟨p, List.mem_cons_of_mem _ hp, hpid, hpe⟩
    | noResp =>
      have hstep : processResults false now ((node, ReqOutcome.noResp) :: rest) st =
          processResults false now rest st := by
        simp [processResults]
      obtain ⟨ihq, ihmono, ihexc, ihrev⟩ := ih st
      rw [hstep]
      refine ⟨ihq, ihmono, ?_, ?_⟩
      · intro p hp hpe
        rcases List.mem_cons.mp hp with rfl | hp
        · exact absurd hpe (by simp)
        · exact ihexc p hp hpe
      · intro id hid
        rcases ihrev id hid with hid | ⟨p, hp, hpid, hpe⟩
        · exact Or.inl hid
        · exact Or.inr ⟨p, List.mem_cons_of_mem _ hp, hpid, hpe⟩
    | resp r =>
      have hfold := foldl_trace_aux
        (fun (acc : LookupSt) nd =>
          if ¬ acc.queried.contains nd.node_id then
            { acc with pending := dictInsert nd acc.pending,
                       table := (acc.table.add_node now nd).2,
                       trace := acc.trace ++ [TableEvent.added nd.node_id] }
          else acc)
        (by
          intro acc x
          by_cases hx : acc.queried.contains x.node_id
          · simp only [hx, not_true_eq_false, if_false]
            exact ⟨by simp, [], by simp, by simp⟩
          · simp only [hx, not_false_eq_true, if_true]
            exact ⟨by simp, [TableEvent.added x.node_id], by simp, by simp⟩)
        r.nodes st
      have hstep : processResults false now ((node, ReqOutcome.resp r) :: rest) st =
          processResults false now rest (r.nodes.foldl
            (fun (acc : LookupSt) nd =>
              if ¬ acc.queried.contains nd.node_id then
                { acc with pending := dictInsert nd acc.pending,
                           table := (acc.table.add_node now nd).2,
                           trace := acc.trace ++ [TableEvent.added nd.node_id] }
              else acc) st) := by
        simp [processResults]
      set stf := r.nodes.foldl
        (fun (acc : LookupSt) nd =>
          if ¬ acc.queried.contains nd.node_id then
            { acc with pending := dictInsert nd acc.pending,
                       table := (acc.table.add_node now nd).2,
                       trace := acc.trace ++ [TableEvent.added nd.node_id] }
          else acc) st with hstf
      obtain ⟨hfq, extra, hft, hfne⟩ := hfold
      obtain ⟨ihq, ihmono, ihexc, ihrev⟩ := ih stf
      rw [hstep]
      refine ⟨by rw [ihq, hfq], ?_, ?_, ?_⟩
      · intro e he
        exact ihmono e (by rw [hft]; exact List.mem_append_left _ he)
      · intro p hp hpe
        rcases List.mem_cons.mp hp with rfl | hp
        · exact absurd hpe (by simp)
        · exact ihexc p hp hpe
      · intro id hid
        rcases ihrev id hid with hid | ⟨p, hp, hpid, hpe⟩
        · rw [hft, List.mem_append] at hid
          rcases hid with hid | hid
          · exact Or.inl hid
          · exact absurd rfl (hfne _ hid id)
        · exact Or.inr ⟨p, List.mem_cons_of_mem _ hp, hpid, hpe⟩

/-- One iteration of the lookup loop preserves the removal invariant. -/
theorem iteration_remInv (net : Bytes → ReqOutcome) (now : Nat) (st : LookupSt)
    (to_query : List NodeInfo) (hst : RemInv net st) :
    RemInv net (processResults false now (to_query.map fun n => (n, net n.node_id))
      (to_query.foldl
        (fun (acc : LookupSt) n =>
          match net n.node_id with
          | .resp _ =>
            { acc with table := acc.table.mark_node_seen now n.node_id,
                       trace := acc.trace ++ [TableEvent.seen n.node_id] }
          | _ => acc)
        { st with queried := st.queried ++ to_query.map (·.node_id) })) := by
  have hsend := foldl_trace_aux
    (fun (acc : LookupSt) n =>
      match net n.node_id with
      | .resp _ =>
        { acc with table := acc.table.mark_node_seen now n.node_id,
                   trace := acc.trace ++ [TableEvent.seen n.node_id] }
      | _ => acc)
    (by
      intro acc x
      cases hx : net x.node_id with
      | resp r =>
        simp only [hx]
        exact ⟨by simp, [TableEvent.seen x.node_id], by simp, by simp⟩
      | exc =>
        simp only [hx]
        exact ⟨by simp, [], by simp, by simp⟩
      | noResp =>
        simp only [hx]
        exact ⟨by simp, [], by simp, by simp⟩)
    to_query { st with queried := st.queried ++ to_query.map (·.node_id) }
  set sendSt := to_query.foldl
    (fun (acc : LookupSt) n =>
      match net n.node_id with
      | .resp _ =>
        { acc with table := acc.table.mark_node_seen now n.node_id,
                   trace := acc.trace ++ [TableEvent.seen n.node_id] }
      | _ => acc)
    { st with queried := st.queried ++ to_query.map (·.node_id) } with hsendSt
  obtain ⟨hsq, sextra, hstr, hsne⟩ := hsend
  obtain ⟨hpq, hpmono, hpexc, hprev⟩ :=
    processResults_spec now (to_query.map fun n => (n, net n.node_id)) sendSt
  constructor
  · intro id hid hexc
    rw [hpq, hsq] at hid
    simp only [List.mem_append] at hid
    rcases hid with hid | hid
    · exact hpmono _ (by rw [hstr]; exact List.mem_append_left _ (hst.1 id hid hexc))
    · rw [List.mem_map] at hid
      obtain ⟨n, hn, rfl⟩ := hid
      exact hpexc (n, net n.node_id) (List.mem_map.mpr ⟨n, hn, rfl⟩) (by rw [hexc])
  · intro id hid
    rcases hprev id hid with hid2 | ⟨p, hp, hpid, hpe⟩
    · rw [hstr, List.mem_append] at hid2
      rcases hid2 with hid2 | hid2
      · have := hst.2 id hid2
        refine ⟨this.1, ?_⟩
        rw [hpq, hsq]
        exact List.mem_append_left _ this.2
      · exact absurd rfl (hsne _ hid2 id)
    · rw [List.mem_map] at hp
      obtain ⟨n, hn, rfl⟩ := hp
      simp only at hpid hpe
      refine ⟨by rw [← hpid]; exact hpe, ?_⟩
      rw [hpq, hsq]
      exact List.mem_append_right _ (List.mem_map.mpr ⟨n, hn, hpid⟩)

/-- The lookup loop preserves the removal invariant. -/
theorem lookupLoop_remInv (net : Bytes → ReqOutcome) (now : Nat) :
    ∀ (fuel : Nat) (st : LookupSt), RemInv net st →
      RemInv net (lookupLoop net false now fuel st) := by
  intro fuel
  induction fuel with
  | zero => exact fun st hst => hst
  | succ n ih =>
    intro st hst
    by_cases hp : st.pending.isEmpty
    · simpa [lookupLoop, hp] using hst
    · by_cases hq : (selectToQuery st.queried st.pending).isEmpty
      · simpa [lookupLoop, hp, hq] using hst
      · have hiter := iteration_remInv net now st (selectToQuery st.queried st.pending) hst
        simp only [lookupLoop, hp, hq, Bool.false_eq_true, if_false]
        split
        · exact hiter
        · exact ih _ hiter

/-- C2 counterexample: one contact `A` in the table; the lookup queries
`A`, the request times out (`send_request` returns `None`), the lookup
finishes — and `A` is still in the routing table; no removal was issued.
This falsifies "on failure **or timeout** the contact is removed". -/
theorem C2_counterexample_timeout_not_removed :
    netNone oneID = ReqOutcome.noResp ∧
    oneID ∈ (iterativeLookup netNone false 1 5 twoID tblA).2.2.2 ∧
    ((iterativeLookup netNone false 1 5 twoID tblA).2.1.get_node oneID).isSome = true ∧
    (iterativeLookup netNone false 1 5 twoID tblA).2.2.1 = [] := by
  refine ⟨rfl, by decide, by decide, by decide⟩

/-- C2 (amended): during a `FIND_NODE` iterative lookup, a queried
contact is removed from the routing table exactly when its request task
raised an exception; a request that merely timed out is surfaced as a
`None` result and the contact is NOT removed. -/
theorem C2_amended_removed_iff_exception (net : Bytes → ReqOutcome)
    (now fuel : Nat) (target : Bytes) (t : RoutingTable) :
    (∀ id ∈ (iterativeLookup net false now fuel target t).2.2.2,
      net id = ReqOutcome.exc →
        TableEvent.removed id ∈ (iterativeLookup net false now fuel target t).2.2.1) ∧
    (∀ id, TableEvent.removed id ∈ (iterativeLookup net false now fuel target t).2.2.1 →
      net id = ReqOutcome.exc ∧
        id ∈ (iterativeLookup net false now fuel target t).2.2.2) := by
  unfold iterativeLookup
  by_cases hc : (t.find_closest_nodes target K).isEmpty
  · simp only [hc, if_true]
    refine ⟨?_, ?_⟩
    · intro id hid
      exact absurd hid (List.not_mem_nil _)
    · intro id hid
      exact absurd hid (List.not_mem_nil _)
  · simp only [hc, Bool.false_eq_true, if_false]
    have h0 : RemInv net
        { table := t, queried := [],
          pending := (t.find_closest_nodes target K).foldl (fun acc n => dictInsert n acc) [],
          trace := [], found_value := none } := by
      constructor
      · intro id hid
        exact absurd hid (List.not_mem_nil _)
      · intro id hid
        exact absurd hid (List.not_mem_nil _)
    exact lookupLoop_remInv net now fuel _ h0

/-- Witness for `C2_amended_removed_iff_exception`: in the all-exception
network, the queried contact `A` gets a removal event. -/
theorem C2_amended_removed_iff_exception_witness :
    TableEvent.removed oneID ∈ (iterativeLookup netExc false 1 5 twoID tblA).2.2.1 :=
  (C2_amended_removed_iff_exception netExc 1 5 twoID tblA).1 oneID (by decide) rfl

/-! ## Claim C3 — `KademliaNode.store` success reporting -/

/-- C3 counterexample: a node with an empty routing table (`find_node`
returns no contacts) reports `store` success although no remote `STORE`
was accepted — indeed none was even sent.  This falsifies "returns true
if and only if at least one remote STORE request was accepted". -/
theorem C3_counterexample_store_true_without_remote :
    (KademliaNode.store netNone (fun _ => false) 0 5 oneID "v" tbl0 []).1 = true ∧
    (iterativeLookup netNone false 0 5 oneID tbl0).1.closest_nodes = [] := by
  exact ⟨by decide, by decide⟩

/-- C3 (amended): `store` returns `true` iff at least one remote `STORE`
was accepted, or the preceding `find_node` lookup produced no contacts at
all — in which case the code stores the value locally only and still
reports success. -/
theorem C3_amended_store_success_iff (net : Bytes → ReqOutcome)
    (storeNet : Bytes → Bool) (now fuel : Nat) (key : Bytes) (value : String)
    (t : RoutingTable) (storage : List (Bytes × String)) :
    (KademliaNode.store net storeNet now fuel key value t storage).1 = true ↔
      ((iterativeLookup net false now fuel key t).1.closest_nodes = [] ∨
        ∃ n ∈ (iterativeLookup net false now fuel key t).1.closest_nodes,
          storeNet n.node_id = true) := by
  rcases hE : iterativeLookup net false now fuel key t with ⟨res, rest⟩
  simp only [KademliaNode.store, hE]
  by_cases hc : res.closest_nodes.isEmpty
  · have hnil : res.closest_nodes = [] := List.isEmpty_iff.mp hc
    simp [hc, hnil]
  · have hnnil : res.closest_nodes ≠ [] := by
      intro h
      rw [h] at hc
      exact hc (by simp)
    simp only [hc, Bool.false_eq_true, if_false, decide_eq_true_eq]
    constructor
    · intro hpos
      refine Or.inr ?_
      have : (res.closest_nodes.filter fun n => storeNet n.node_id) ≠ [] := by
        intro h
        rw [h] at hpos
        simp at hpos
      obtain ⟨x, hx⟩ := List.exists_mem_of_ne_nil _ this
      rw [List.mem_filter] at hx
      exact ⟨x, hx.1, hx.2⟩
    · intro h
      rcases h with h | ⟨n, hn, hsn⟩
      · exact absurd h hnnil
      · have : n ∈ res.closest_nodes.filter fun n => storeNet n.node_id :=
          List.mem_filter.mpr ⟨hn, hsn⟩
        have := List.length_pos.mpr (List.ne_nil_of_mem this)
        simpa using this

/-! ## Claims C5/C6 — chunk store integrity -/

theorem fsLookup_fsSet_self (key : String) (v : Bytes) (l : List (String × Bytes)) :
    fsLookup key (fsSet key v l) = some v := by
  simp [fsLookup, fsSet]

theorem fsLookup_fsErase_self (key : String) (l : List (String × Bytes)) :
    fsLookup key (fsErase key l) = none := by
  unfold fsLookup fsErase
  rw [List.find?_eq_none.mpr]
  · rfl
  · intro x hx
    have := (List.mem_filter.mp hx).2
    simpa using this

/-- `get_chunk` touches only the `chunks` directory. -/
theorem get_chunk_files_temp (hash : Bytes → String) (h : String) (fs : FS) :
    (ChunkStorage.get_chunk hash h fs).2.files = fs.files ∧
    (ChunkStorage.get_chunk hash h fs).2.temp = fs.temp := by
  cases hl : fsLookup h fs.chunks with
  | none =>
    simp [ChunkStorage.get_chunk, hl]
  | some data =>
    by_cases hd : hash data ≠ h
    · simp only [ChunkStorage.get_chunk, hl]
      rw [if_pos hd]
      exact ⟨rfl, rfl⟩
    · simp only [ChunkStorage.get_chunk, hl]
      rw [if_neg hd]
      exact ⟨rfl, rfl⟩

/-- The streaming loop touches only the `chunks` directory. -/
theorem streamChunks_files_temp (hash : Bytes → String) (cs : List ChunkInfo)
    (fs : FS) :
    (streamChunks hash cs fs).2.files = fs.files ∧
    (streamChunks hash cs fs).2.temp = fs.temp := by
  induction cs generalizing fs with
  | nil => exact ⟨rfl, rfl⟩
  | cons c rest ih =>
    rcases hg : ChunkStorage.get_chunk hash c.hash fs with ⟨od, fs2⟩
    have hfs2 : fs2.files = fs.files ∧ fs2.temp = fs.temp := by
      have := get_chunk_files_temp hash c.hash fs
      rw [hg] at this
      exact this
    cases od with
    | none =>
      simp only [streamChunks, hg]
      exact hfs2
    | some d =>
      rcases hs : streamChunks hash rest fs2 with ⟨od2, fs3⟩
      have hfs3 : fs3.files = fs2.files ∧ fs3.temp = fs2.temp := by
        have := ih fs2
        rw [hs] at this
        exact this
      cases od2 with
      | none =>
        simp only [streamChunks, hg, hs]
        exact ⟨hfs3.1.trans hfs2.1, hfs3.2.trans hfs2.2⟩
      | some tail =>
        simp only [streamChunks, hg, hs]
        exact ⟨hfs3.1.trans hfs2.1, hfs3.2.trans hfs2.2⟩

/-- C6: `get_chunk` returns bytes only when they re-hash to the requested
name; a corrupted on-disk chunk is deleted, the result is not-found, and
`has_chunk` is false afterwards. -/
theorem C6_get_chunk_self_heals (hash : Bytes → String) (h : String) (fs : FS) :
    (∀ d, (ChunkStorage.get_chunk hash h fs).1 = some d →
      hash d = h ∧ fsLookup h fs.chunks = some d ∧
        (ChunkStorage.get_chunk hash h fs).2 = fs) ∧
    (∀ d, fsLookup h fs.chunks = some d → hash d ≠ h →
      (ChunkStorage.get_chunk hash h fs).1 = none ∧
        ChunkStorage.has_chunk h (ChunkStorage.get_chunk hash h fs).2 = false) := by
  cases hl : fsLookup h fs.chunks with
  | none =>
    refine ⟨?_, ?_⟩
    · intro d hd
      rw [show ChunkStorage.get_chunk hash h fs = (none, fs) by
        simp only [ChunkStorage.get_chunk, hl]] at hd
      exact absurd hd (by simp)
    · intro d hd hne
      exact absurd hd (by simp)
  | some data =>
    by_cases hd : hash data ≠ h
    · have hG : ChunkStorage.get_chunk hash h fs =
          (none, { fs with chunks := fsErase h fs.chunks }) := by
        simp only [ChunkStorage.get_chunk, hl]
        rw [if_pos hd]
      refine ⟨?_, ?_⟩
      · intro d hsome
        rw [hG] at hsome
        exact absurd hsome (by simp)
      · intro d hdl hne
        rw [hG]
        refine ⟨rfl, ?_⟩
        unfold ChunkStorage.has_chunk
        simp only
        rw [fsLookup_fsErase_self]
        rfl
    · push_neg at hd
      have hG : ChunkStorage.get_chunk hash h fs = (some data, fs) := by
        simp only [ChunkStorage.get_chunk, hl]
        rw [if_neg (by simp [hd])]
      refine ⟨?_, ?_⟩
      · intro d hsome
        rw [hG] at hsome
        simp only [Option.some_inj] at hsome
        rw [← hsome]
        exact ⟨hd, rfl, by rw [hG]⟩
      · intro d hdl hne
        simp only [Option.some_inj] at hdl
        rw [hdl] at hd
        exact absurd hd hne

/-- Witness for `C6_get_chunk_self_heals`: a chunk stored under the name
`"x"` whose content hashes to something else is deleted on read. -/
theorem C6_get_chunk_self_heals_witness :
    (fsLookup "x" corruptFS.chunks = some [1] ∧ demoHash [1] ≠ "x") ∧
    (ChunkStorage.get_chunk demoHash "x" corruptFS).1 = none ∧
    ChunkStorage.has_chunk "x" (ChunkStorage.get_chunk demoHash "x" corruptFS).2 = false := by
  refine ⟨⟨by decide, by decide⟩, ?_⟩
  exact (C6_get_chunk_self_heals demoHash "x" corruptFS).2 [1] (by decide) (by decide)

/-- C5 counterexample: `reassemble_file` never checks `manifest.size`.
A manifest claiming `size = 999` over a single 1-byte chunk whose digests
are consistent reassembles successfully into a 1-byte visible output.
(The code compares digest strings only, so the behaviour is uniform in
the digest function; `demoHash` stands in for SHA-256.) -/
theorem C5_counterexample_size_not_checked :
    (ChunkStorage.reassemble_file demoHash c5manifest "out" c5fs).1 = some "out" ∧
    fsLookup "out" (ChunkStorage.reassemble_file demoHash c5manifest "out" c5fs).2.files
      = some [42] ∧
    c5manifest.size = 999 ∧ ([42] : Bytes).length ≠ 999 := by
  exact ⟨by decide, by decide, by decide, by decide⟩

/-- C5 (amended): `reassemble_file` makes an output visible only when every
chunk was present at entry and the streamed content re-hashes to
`manifest.info_hash`; on failure the output path is untouched; on success
the visible output is the streamed chunk concatenation — but its length is
not compared against `manifest.size`, so the size equality holds only for
manifests whose chunk list actually matches their `size` field. -/
theorem C5_amended_reassemble_integrity (hash : Bytes → String)
    (m : FileManifest) (out : String) (fs : FS) :
    (∀ p fs2, ChunkStorage.reassemble_file hash m out fs = (some p, fs2) →
      p = out ∧ ∃ content, fsLookup out fs2.files = some content ∧
        hash content = m.info_hash ∧
        (streamChunks hash m.chunks fs).1 = some content ∧
        ∀ c ∈ m.chunks, ChunkStorage.has_chunk c.hash fs = true) ∧
    (∀ fs2, ChunkStorage.reassemble_file hash m out fs = (none, fs2) →
      fsLookup out fs2.files = fsLookup out fs.files) := by
  unfold ChunkStorage.reassemble_file
  by_cases hall : m.chunks.all (fun c => ChunkStorage.has_chunk c.hash fs)
  · simp only [hall, if_true]
    rcases hS : streamChunks hash m.chunks fs with ⟨od, fs2x⟩
    have hfiles : fs2x.files = fs.files := by
      have := streamChunks_files_temp hash m.chunks fs
      rw [hS] at this
      exact this.1
    cases od with
    | none =>
      simp only [reassembleFinish]
      refine ⟨?_, ?_⟩
      · intro p fs2 hp
        exact absurd hp (by simp)
      · intro fs2 hp
        simp only [Prod.mk.injEq] at hp
        rw [← hp.2]
        simp only
        rw [hfiles]
    | some content =>
      simp only [reassembleFinish]
      by_cases hh : hash content ≠ m.info_hash
      · rw [if_pos hh]
        refine ⟨?_, ?_⟩
        · intro p fs2 hp
          exact absurd hp (by simp)
        · intro fs2 hp
          simp only [Prod.mk.injEq] at hp
          rw [← hp.2]
          simp only
          rw [hfiles]
      · rw [if_neg hh]
        push_neg at hh
        refine ⟨?_, ?_⟩
        · intro p fs2 hp
          simp only [Prod.mk.injEq, Option.some_inj] at hp
          refine ⟨hp.1.symm, content, ?_, hh, rfl, ?_⟩
          · rw [← hp.2]
            simp only
            exact fsLookup_fsSet_self ..
          · intro c hc
            have := List.all_eq_true.mp hall c hc
            simpa using this
        · intro fs2 hp
          exact absurd hp (by simp)
  · simp only [hall, Bool.false_eq_true, if_false]
    refine ⟨?_, ?_⟩
    · intro p fs2 hp
      exact absurd hp (by simp)
    · intro fs2 hp
      simp only [Prod.mk.injEq] at hp
      rw [← hp.2]

/-- Witness for `C5_amended_reassemble_integrity`: the empty-manifest
reassembly succeeds, and the success branch of the theorem applies. -/
theorem C5_amended_reassemble_integrity_witness :
    ∃ content,
      fsLookup "o" (ChunkStorage.reassemble_file demoHash emptyManifest "o" emptyFS).2.files
        = some content ∧ demoHash content = emptyManifest.info_hash := by
  obtain ⟨-, content, h1, h2, -, -⟩ :=
    (C5_amended_reassemble_integrity demoHash emptyManifest "o" emptyFS).1 "o"
      (ChunkStorage.reassemble_file demoHash emptyManifest "o" emptyFS).2 (by decide)
  exact ⟨content, h1, h2⟩

/-! ## Claims C7/C8 — `create_manifest` -/

/-- The read loop on an empty rest stops immediately. -/
theorem manifestLoop_nil (hash : Bytes → String) (csize idx off : Nat) :
    manifestLoop hash csize [] idx off = ([], []) := by
  rw [manifestLoop]
  simp

/-- One unfolding of the read loop on a non-empty read. -/
theorem manifestLoop_cons (hash : Bytes → String) (csize : Nat) (rem : Bytes)
    (idx off : Nat) (h : ¬ (rem.take csize).isEmpty = true) :
    manifestLoop hash csize rem idx off =
      ({ index := idx, hash := hash (rem.take csize), size := (rem.take csize).length,
         offset := off } :: (manifestLoop hash csize (rem.drop csize) (idx + 1)
           (off + (rem.take csize).length)).1,
       rem.take csize ++ (manifestLoop hash csize (rem.drop csize) (idx + 1)
         (off + (rem.take csize).length)).2) := by
  rw [manifestLoop]
  simp [h]

/-- Full functional specification of the read loop, for a positive chunk
size: the hashed bytes are the input, the chunk sizes sum to the input
length, and chunk `i` describes block `i` of the input. -/
theorem manifestLoop_spec (hash : Bytes → String) (csize : Nat) (hcs : 0 < csize) :
    ∀ (n : Nat) (rem : Bytes), rem.length ≤ n → ∀ (idx off : Nat),
      (manifestLoop hash csize rem idx off).2 = rem ∧
      ((manifestLoop hash csize rem idx off).1.map (·.size)).sum = rem.length ∧
      ∀ i (hi : i < (manifestLoop hash csize rem idx off).1.length),
        ((manifestLoop hash csize rem idx off).1.get ⟨i, hi⟩).index = idx + i ∧
        ((manifestLoop hash csize rem idx off).1.get ⟨i, hi⟩).offset =
          off + (((manifestLoop hash csize rem idx off).1.take i).map (·.size)).sum ∧
        ((manifestLoop hash csize rem idx off).1.get ⟨i, hi⟩).size =
          ((rem.drop (i * csize)).take csize).length ∧
        ((manifestLoop hash csize rem idx off).1.get ⟨i, hi⟩).hash =
          hash ((rem.drop (i * csize)).take csize) := by
  intro n
  induction n with
  | zero =>
    intro rem hrem idx off
    have hnil : rem = [] := List.length_eq_zero.mp (Nat.le_zero.mp hrem)
    subst hnil
    rw [manifestLoop_nil]
    refine ⟨rfl, rfl, ?_⟩
    intro i hi
    exact absurd hi (by simp)
  | succ n ih =>
    intro rem hrem idx off
    by_cases hrm : rem = []
    · subst hrm
      rw [manifestLoop_nil]
      refine ⟨rfl, rfl, ?_⟩
      intro i hi
      exact absurd hi (by simp)
    · have hpos : 0 < rem.length := List.length_pos.mpr hrm
      have hne : ¬ (rem.take csize).isEmpty = true := by
        simp only [List.isEmpty_eq_true, List.take_eq_nil_iff]
        push_neg
        exact ⟨Nat.pos_iff_ne_zero.mp hcs, hrm⟩
      have hlen : (rem.drop csize).length ≤ n := by
        simp only [List.length_drop]
        omega
      obtain ⟨ihbs, ihsum, ihget⟩ := ih (rem.drop csize) hlen (idx + 1)
        (off + (rem.take csize).length)
      rw [manifestLoop_cons hash csize rem idx off hne]
      refine ⟨?_, ?_, ?_⟩
      · simp only
        rw [ihbs, List.take_append_drop]
      · simp only [List.map_cons, List.sum_cons, ihsum]
        simp only [List.length_take, List.length_drop]
        omega
      · intro i hi
        cases i with
        | zero =>
          refine ⟨by simp, by simp, ?_, ?_⟩
          · simp
          · simp
        | succ j =>
          simp only [List.length_cons, Nat.add_lt_add_iff_right] at hi
          have hj := ihget j (by simpa using hi)
          have hblock : ((rem.drop csize).drop (j * csize)).take csize =
              (rem.drop ((j + 1) * csize)).take csize := by
            rw [List.drop_drop]
            congr 1
            rw [Nat.add_mul, Nat.one_mul, Nat.add_comm]
          refine ⟨?_, ?_, ?_, ?_⟩
          · simp only [List.get_eq_getElem, List.getElem_cons_succ]
            have := hj.1
            simp only [List.get_eq_getElem] at this
            rw [this]
            omega
          · simp only [List.get_eq_getElem, List.getElem_cons_succ]
            have := hj.2.1
            simp only [List.get_eq_getElem] at this
            rw [this]
            simp only [List.take_succ_cons, List.map_cons, List.sum_cons]
            omega
          · simp only [List.get_eq_getElem, List.getElem_cons_succ]
            have := hj.2.2.1
            simp only [List.get_eq_getElem] at this
            rw [this, hblock]
          · simp only [List.get_eq_getElem, List.getElem_cons_succ]
            have := hj.2.2.2
            simp only [List.get_eq_getElem] at this
            rw [this, hblock]

/-- C7: for a positive chunk size, the manifest produced by
`create_manifest` over an unchanged file satisfies: chunk sizes sum to
`size`, `chunk[i].index = i`, `chunk[i].offset` is the sum of the sizes of
chunks `0..i-1`, `chunk[i]` carries the digest and length of block `i` of
the file, and `info_hash` is the digest of the whole file. -/
theorem C7_create_manifest_invariants (hash : Bytes → String) (file : Bytes)
    (name node_id : String) (csize : Nat) (hcs : 0 < csize) :
    (((create_manifest hash file name node_id csize).chunks.map (·.size)).sum =
      (create_manifest hash file name node_id csize).size) ∧
    (create_manifest hash file name node_id csize).info_hash = hash file ∧
    ∀ i (hi : i < (create_manifest hash file name node_id csize).chunks.length),
      ((create_manifest hash file name node_id csize).chunks.get ⟨i, hi⟩).index = i ∧
      ((create_manifest hash file name node_id csize).chunks.get ⟨i, hi⟩).offset =
        (((create_manifest hash file name node_id csize).chunks.take i).map (·.size)).sum ∧
      ((create_manifest hash file name node_id csize).chunks.get ⟨i, hi⟩).size =
        ((file.drop (i * csize)).take csize).length ∧
      ((create_manifest hash file name node_id csize).chunks.get ⟨i, hi⟩).hash =
        hash ((file.drop (i * csize)).take csize) := by
  obtain ⟨hbs, hsum, hget⟩ :=
    manifestLoop_spec hash csize hcs file.length file (Nat.le_refl _) 0 0
  refine ⟨?_, ?_, ?_⟩
  · simpa [create_manifest] using hsum
  · simp only [create_manifest]
    rw [hbs]
  · intro i hi
    have := hget i (by simpa [create_manifest] using hi)
    simpa [create_manifest] using this

/-- Witness for `C7_create_manifest_invariants`: a 3-byte file with chunk
size 2 under the concrete digest function. -/
theorem C7_create_manifest_invariants_witness :
    0 < 2 ∧
    ((create_manifest demoHash [1, 2, 3] "f" "" 2).chunks.map (·.size)).sum =
      (create_manifest demoHash [1, 2, 3] "f" "" 2).size :=
  ⟨by decide, (C7_create_manifest_invariants demoHash [1, 2, 3] "f" "" 2 (by decide)).1⟩

/-- C8: an empty file yields a manifest with zero chunks whose `info_hash`
is the digest of the empty byte string, and `reassemble_file` on that
manifest succeeds with a zero-byte visible output, for any chunk size and
any starting store. -/
theorem C8_empty_file_manifest_roundtrip (hash : Bytes → String)
    (name node_id : String) (csize : Nat) (out : String) (fs : FS) :
    (create_manifest hash [] name node_id csize).chunks = [] ∧
    (create_manifest hash [] name node_id csize).size = 0 ∧
    (create_manifest hash [] name node_id csize).info_hash = hash [] ∧
    (ChunkStorage.reassemble_file hash (create_manifest hash [] name node_id csize)
      out fs).1 = some out ∧
    fsLookup out (ChunkStorage.reassemble_file hash
      (create_manifest hash [] name node_id csize) out fs).2.files = some [] := by
  have h0 := manifestLoop_nil hash csize 0 0
  have hchunks : (create_manifest hash [] name node_id csize).chunks = [] := by
    simp [create_manifest, h0]
  have hih : (create_manifest hash [] name node_id csize).info_hash = hash [] := by
    simp [create_manifest, h0]
  have hre : ChunkStorage.reassemble_file hash
      (create_manifest hash [] name node_id csize) out fs =
      reassembleFinish hash (create_manifest hash [] name node_id csize) out
        (some [], fs) := by
    unfold ChunkStorage.reassemble_file
    rw [hchunks]
    simp [streamChunks]
  rw [hre]
  have hfin : reassembleFinish hash (create_manifest hash [] name node_id csize) out
      (some [], fs) =
      (some out,
       { fs with
         temp := fsErase ((create_manifest hash [] name node_id csize).info_hash ++ ".tmp")
           (fsSet ((create_manifest hash [] name node_id csize).info_hash ++ ".tmp") [] fs.temp),
         files := fsSet out [] fs.files }) := by
    simp only [reassembleFinish]
    rw [if_neg]
    rw [hih]
    simp
  rw [hfin]
  refine ⟨hchunks, by simp [create_manifest], hih, rfl, ?_⟩
  simp only
  exact fsLookup_fsSet_self ..

/-! ## Claim C10 — totality of `TransferMessage.from_reader` -/

/-- C10: `from_reader` is an `Option`-style total reader.  A truncated
stream (short read anywhere), a declared total length over the 100 MiB
cap, an unparsable header, or an unknown message type all yield `none`
(the Python handlers catch `IncompleteReadError` and every other
exception); a `TransferMessage` is produced only for a well-framed
message, whose decomposition the last conjunct exhibits. -/
theorem C10_from_reader_total (jsonParse : Bytes → Option JsonVal) (s : Bytes) :
    (s.length < 4 → TransferMessage.from_reader jsonParse s = none) ∧
    (100 * 1024 * 1024 < bytes_to_int (s.take 4) →
      TransferMessage.from_reader jsonParse s = none) ∧
    (∀ m rest, TransferMessage.from_reader jsonParse s = some (m, rest) →
      ∃ hdr tyStr,
        ¬ s.length < 4 ∧
        bytes_to_int (s.take 4) ≤ 100 * 1024 * 1024 ∧
        ¬ (s.drop 4).length < 4 ∧
        ¬ (s.drop 8).length < bytes_to_int ((s.drop 4).take 4) ∧
        jsonParse ((s.drop 8).take (bytes_to_int ((s.drop 4).take 4))) =
          some (JsonVal.obj hdr) ∧
        headerLookup "type" hdr = some (HVal.str tyStr) ∧
        TransferMessageType.ofString tyStr = some m.type ∧
        m.headers = headerErase "data_length" (headerErase "type" hdr)) ∧
    (jsonParse ((s.drop 8).take (bytes_to_int ((s.drop 4).take 4))) = none →
      TransferMessage.from_reader jsonParse s = none) ∧
    (∀ hdr tyStr,
      jsonParse ((s.drop 8).take (bytes_to_int ((s.drop 4).take 4))) =
        some (JsonVal.obj hdr) →
      headerLookup "type" hdr = some (HVal.str tyStr) →
      TransferMessageType.ofString tyStr = none →
      TransferMessage.from_reader jsonParse s = none) := by
  have hmain : ∀ m rest, TransferMessage.from_reader jsonParse s = some (m, rest) →
      ∃ hdr tyStr,
        ¬ s.length < 4 ∧
        bytes_to_int (s.take 4) ≤ 100 * 1024 * 1024 ∧
        ¬ (s.drop 4).length < 4 ∧
        ¬ (s.drop 8).length < bytes_to_int ((s.drop 4).take 4) ∧
        jsonParse ((s.drop 8).take (bytes_to_int ((s.drop 4).take 4))) =
          some (JsonVal.obj hdr) ∧
        headerLookup "type" hdr = some (HVal.str tyStr) ∧
        TransferMessageType.ofString tyStr = some m.type ∧
        m.headers = headerErase "data_length" (headerErase "type" hdr) := by
    intro m rest hsome
    unfold TransferMessage.from_reader at hsome
    rcases hbody : fromReaderBody jsonParse s with e | pr
    · rw [hbody] at hsome
      exact absurd hsome (by simp)
    · rw [hbody] at hsome
      simp only [Option.some_inj] at hsome
      subst hsome
      unfold fromReaderBody at hbody
      by_cases h4 : s.length < 4
      · rw [show readexactly 4 s = .error .incompleteRead from by
            simp [readexactly, h4]] at hbody
        exact absurd hbody (by simp)
      · rw [show readexactly 4 s = .ok (s.take 4, s.drop 4) from by
            simp [readexactly, h4]] at hbody
        simp only at hbody
        by_cases hcap : bytes_to_int (s.take 4) > 100 * 1024 * 1024
        · rw [if_pos hcap] at hbody
          exact absurd hbody (by simp)
        · rw [if_neg hcap] at hbody
          by_cases h8 : (s.drop 4).length < 4
          · rw [show readexactly 4 (s.drop 4) = .error .incompleteRead from by
                unfold readexactly; rw [if_pos h8]] at hbody
            exact absurd hbody (by simp)
          · rw [show readexactly 4 (s.drop 4) = .ok ((s.drop 4).take 4, (s.drop 4).drop 4)
                from by unfold readexactly; rw [if_neg h8]] at hbody
            simp only at hbody
            rw [show (s.drop 4).drop 4 = s.drop 8 from by
                rw [List.drop_drop]] at hbody
            by_cases hh : (s.drop 8).length < bytes_to_int ((s.drop 4).take 4)
            · rw [show readexactly (bytes_to_int ((s.drop 4).take 4)) (s.drop 8) =
                  .error .incompleteRead from by unfold readexactly; rw [if_pos hh]] at hbody
              exact absurd hbody (by simp)
            · rw [show readexactly (bytes_to_int ((s.drop 4).take 4)) (s.drop 8) =
                  .ok ((s.drop 8).take (bytes_to_int ((s.drop 4).take 4)),
                       (s.drop 8).drop (bytes_to_int ((s.drop 4).take 4)))
                  from by unfold readexactly; rw [if_neg hh]] at hbody
              simp only at hbody
              rcases hjp : jsonParse ((s.drop 8).take (bytes_to_int ((s.drop 4).take 4)))
                with _ | hv
              · rw [hjp] at hbody
                exact absurd hbody (by simp)
              · rw [hjp] at hbody
                simp only at hbody
                rcases hdata : (if ((bytes_to_int (s.take 4) : Int) -
                      (bytes_to_int ((s.drop 4).take 4) : Int) > 0) then
                        readexactly ((bytes_to_int (s.take 4) : Int) -
                          (bytes_to_int ((s.drop 4).take 4) : Int)).toNat
                          ((s.drop 8).drop (bytes_to_int ((s.drop 4).take 4)))
                      else .ok (([] : Bytes),
                        (s.drop 8).drop (bytes_to_int ((s.drop 4).take 4))))
                  with e2 | dpr
                · rw [hdata] at hbody
                  exact absurd hbody (by simp)
                · rw [hdata] at hbody
                  simp only at hbody
                  obtain ⟨data, s4⟩ := dpr
                  cases hv with
                  | nonObj => exact absurd hbody (by simp)
                  | obj hdr =>
                    simp only at hbody
                    rcases hlk : headerLookup "type" hdr with _ | tv
                    · rw [hlk] at hbody
                      exact absurd hbody (by simp)
                    · rw [hlk] at hbody
                      cases tv with
                      | nonStr => exact absurd hbody (by simp)
                      | str sv =>
                        simp only at hbody
                        rcases hof : TransferMessageType.ofString sv with _ | ty
                        · rw [hof] at hbody
                          exact absurd hbody (by simp)
                        · rw [hof] at hbody
                          simp only [Except.ok.injEq, Prod.mk.injEq] at hbody
                          refine ⟨hdr, sv, h4, by omega, h8, hh, rfl, hlk, ?_, ?_⟩
                          · rw [← hbody.1]
                            exact hof
                          · rw [← hbody.1]
  refine ⟨?_, ?_, hmain, ?_, ?_⟩
  · intro h4
    unfold TransferMessage.from_reader fromReaderBody
    rw [show readexactly 4 s = .error .incompleteRead from by simp [readexactly, h4]]
  · intro hcap
    by_cases h4 : s.length < 4
    · unfold TransferMessage.from_reader fromReaderBody
      rw [show readexactly 4 s = .error .incompleteRead from by
        unfold readexactly; rw [if_pos h4]]
    · unfold TransferMessage.from_reader fromReaderBody
      rw [show readexactly 4 s = .ok (s.take 4, s.drop 4) from by
        unfold readexactly; rw [if_neg h4]]
      simp only
      rw [if_pos hcap]
  · intro hjp
    rcases hres : TransferMessage.from_reader jsonParse s with _ | pr
    · rfl
    · obtain ⟨m, rest⟩ := pr
      obtain ⟨hdr, tyStr, -, -, -, -, hjp2, -⟩ := hmain m rest hres
      rw [hjp] at hjp2
      exact absurd hjp2 (by simp)
  · intro hdr tyStr hjp hlk hof
    rcases hres : TransferMessage.from_reader jsonParse s with _ | pr
    · rfl
    · obtain ⟨m, rest⟩ := pr
      obtain ⟨hdr2, tyStr2, -, -, -, -, hjp2, hlk2, hof2, -⟩ := hmain m rest hres
      rw [hjp] at hjp2
      simp only [Option.some_inj, JsonVal.obj.injEq] at hjp2
      subst hjp2
      rw [hlk] at hlk2
      simp only [Option.some_inj, HVal.str.injEq] at hlk2
      subst hlk2
      rw [hof] at hof2
      exact absurd hof2 (by simp)

/-- Witness for `C10_from_reader_total`: a two-byte (truncated) stream
yields `none`. -/
theorem C10_from_reader_total_witness :
    TransferMessage.from_reader (fun _ => none) [0, 1] = none :=
  (C10_from_reader_total (fun _ => none) [0, 1]).1 (by decide)

end P2P
